import Mathlib

/-!
Verification of the helix directional search core
(src/helix-core/src/search.rs) against its specification.

The character motions find_nth_next and find_nth_prev are embedded over a
text given as a list of characters.  The regex drivers find and rfind are
embedded over a text given as a list of byte chunks, with the external
compiled automaton modelled by the CompiledPattern boundary contract of the
spec (start state, total byte transition, dead and match classification).
-/

namespace HelixSearch

/-- Checked natural subtraction: models the Rust usize subtraction used by
the exclusive adjustment of find_nth_next, where an underflow is a panic
and therefore produces no result. -/
def checkedSub (a b : Nat) : Option Nat :=
  if b ≤ a then some (a - b) else none

/-- Embeds the inner loop of find_nth_next: advance the forward character
cursor, incrementing the running position per consumed character, until a
character equal to ch is produced; none when the cursor is exhausted.
Returns the remaining cursor and the updated position. -/
def findCharFwd (ch : Char) : List Char → Nat → Option (List Char × Nat)
  | [], _ => none
  | c :: rest, pos =>
    if c = ch then some (rest, pos + 1) else findCharFwd ch rest (pos + 1)

/-- Embeds the outer for loop of find_nth_next: n repetitions of the inner
character scan, threading the cursor and the running position. -/
def findNthNextLoop (ch : Char) : Nat → List Char → Nat → Option Nat
  | 0, _, pos => some pos
  | n + 1, chars, pos =>
    match findCharFwd ch chars pos with
    | none => none
    | some rp => findNthNextLoop ch n rp.1 rp.2

/-- Embeds find_nth_next from src/helix-core/src/search.rs: reject an out of
range start, scan strictly after pos for the n-th occurrence of ch, and
apply the exclusive adjustment pos - 1 when inclusive is false. -/
def find_nth_next (text : List Char) (ch : Char) (pos n : Nat)
    (inclusive : Bool) : Option Nat :=
  if text.length ≤ pos then none
  else
    match findNthNextLoop ch n (text.drop (pos + 1)) pos with
    | none => none
    | some p => if inclusive then some p else checkedSub p 1

/-- Embeds the inner loop of find_nth_prev: consume the character
immediately preceding the scan position (the cursor is the reversed prefix
of the text before pos), decrementing the running position per consumed
character with saturation at 0, until ch is found. -/
def findCharRev (ch : Char) : List Char → Nat → Option (List Char × Nat)
  | [], _ => none
  | c :: rest, pos =>
    if c = ch then some (rest, pos - 1) else findCharRev ch rest (pos - 1)

/-- Embeds the outer for loop of find_nth_prev: n repetitions of the inner
backward character scan. -/
def findNthPrevLoop (ch : Char) : Nat → List Char → Nat → Option Nat
  | 0, _, pos => some pos
  | n + 1, chars, pos =>
    match findCharRev ch chars pos with
    | none => none
    | some rp => findNthPrevLoop ch n rp.1 rp.2

/-- Embeds find_nth_prev from src/helix-core/src/search.rs: the backward
cursor starts at pos, and the exclusive adjustment pos + 1 is applied when
inclusive is false. -/
def find_nth_prev (text : List Char) (ch : Char) (pos n : Nat)
    (inclusive : Bool) : Option Nat :=
  match findNthPrevLoop ch n ((text.take pos).reverse) pos with
  | none => none
  | some p => if inclusive then some p else some (p + 1)

/-- Helper: the inner forward scan strictly increases the running position. -/
theorem findCharFwd_lt (ch : Char) :
    ∀ (l : List Char) (pos : Nat) (rp : List Char × Nat),
      findCharFwd ch l pos = some rp → pos < rp.2 := by
  intro l
  induction l with
  | nil => intro pos rp h; simp [findCharFwd] at h
  | cons c rest ih =>
    intro pos rp h
    obtain ⟨r1, r2⟩ := rp
    by_cases hc : c = ch
    · simp [findCharFwd, hc] at h
      omega
    · simp [findCharFwd, hc] at h
      have := ih (pos + 1) (r1, r2) h
      simp at this
      omega

/-- Helper: the n-fold forward scan never decreases the running position. -/
theorem findNthNextLoop_le (ch : Char) :
    ∀ (n : Nat) (l : List Char) (pos p : Nat),
      findNthNextLoop ch n l pos = some p → pos ≤ p := by
  intro n
  induction n with
  | zero =>
    intro l pos p h
    simp [findNthNextLoop] at h
    omega
  | succ m ih =>
    intro l pos p h
    simp only [findNthNextLoop] at h
    cases hf : findCharFwd ch l pos with
    | none => rw [hf] at h; simp at h
    | some rp =>
      rw [hf] at h
      have h1 := findCharFwd_lt ch l pos rp hf
      have h2 := ih rp.1 rp.2 p h
      omega

/-- C1 counterexample: the claim asserts that n = 0 is the identity for both
values of inclusive, but with inclusive = false the exclusive adjustment
still runs, so find_nth_next on text "ab" at pos 1 with n = 0 returns
some 0, not some 1. -/
theorem c1_n_zero_counterexample :
    ¬ (find_nth_next [Char.ofNat 97, Char.ofNat 98] (Char.ofNat 120)
        1 0 false = some 1) := by
  decide

/-- C1 (amended): with n = 0 and a valid pos, both motions return some pos
when inclusive is true; when inclusive is false the adjustment still runs,
so find_nth_next returns some (pos - 1) (defined only for pos at least 1,
the subtraction underflowing at pos = 0) and find_nth_prev returns
some (pos + 1). -/
theorem c1_n_zero_behavior (text : List Char) (ch : Char) (pos : Nat)
    (h : pos < text.length) :
    find_nth_next text ch pos 0 true = some pos ∧
    find_nth_prev text ch pos 0 true = some pos ∧
    (1 ≤ pos → find_nth_next text ch pos 0 false = some (pos - 1)) ∧
    find_nth_prev text ch pos 0 false = some (pos + 1) := by
  have hnl : ¬ text.length ≤ pos := Nat.not_le.mpr h
  refine ⟨?_, ?_, ?_, ?_⟩
  · simp [find_nth_next, findNthNextLoop, hnl]
  · simp [find_nth_prev, findNthPrevLoop]
  · intro hp
    simp [find_nth_next, findNthNextLoop, hnl, checkedSub, hp]
  · simp [find_nth_prev, findNthPrevLoop]

/-- C1 witness: the amended statement evaluated on text "ab" at pos 1. -/
theorem c1_n_zero_behavior_witness :
    find_nth_next [Char.ofNat 97, Char.ofNat 98] (Char.ofNat 120)
        1 0 true = some 1 ∧
    find_nth_prev [Char.ofNat 97, Char.ofNat 98] (Char.ofNat 120)
        1 0 true = some 1 ∧
    find_nth_next [Char.ofNat 97, Char.ofNat 98] (Char.ofNat 120)
        1 0 false = some 0 ∧
    find_nth_prev [Char.ofNat 97, Char.ofNat 98] (Char.ofNat 120)
        1 0 false = some 2 := by
  have h := c1_n_zero_behavior [Char.ofNat 97, Char.ofNat 98]
    (Char.ofNat 120) 1 (by decide)
  exact ⟨h.1, h.2.1, h.2.2.1 (by decide), h.2.2.2⟩

/-- C6: whenever both results are present, the inclusive and exclusive
variants of each motion differ by exactly one character index, in the
direction of the original pos: find_nth_next with inclusive = true equals
the exclusive result plus 1, and find_nth_prev with inclusive = false
equals the inclusive result plus 1. -/
theorem c6_inclusive_exclusive_off_by_one (text : List Char) (ch : Char)
    (pos n : Nat) :
    (∀ a b, find_nth_next text ch pos n true = some a →
      find_nth_next text ch pos n false = some b → a = b + 1) ∧
    (∀ a b, find_nth_prev text ch pos n false = some a →
      find_nth_prev text ch pos n true = some b → a = b + 1) := by
  constructor
  · intro a b ha hb
    unfold find_nth_next at ha hb
    by_cases hl : text.length ≤ pos
    · simp [hl] at ha
    · simp only [if_neg hl] at ha hb
      cases hp : findNthNextLoop ch n (text.drop (pos + 1)) pos with
      | none => rw [hp] at ha; simp at ha
      | some p =>
        rw [hp] at ha hb
        simp only [if_pos, if_neg, Bool.false_eq_true, ite_true,
          ite_false] at ha hb
        unfold checkedSub at hb
        by_cases h1 : 1 ≤ p
        · rw [if_pos h1] at hb
          simp at ha hb
          omega
        · rw [if_neg h1] at hb
          simp at hb
  · intro a b ha hb
    unfold find_nth_prev at ha hb
    cases hp : findNthPrevLoop ch n ((text.take pos).reverse) pos with
    | none => rw [hp] at ha; simp at ha
    | some p =>
      rw [hp] at ha hb
      simp at ha hb
      omega

/-- C6 witness: on text "ab", the forward motion to the first b from pos 0
gives 1 (inclusive) and 0 (exclusive), and the backward motion to the
first a from pos 2 gives 1 (exclusive) and 0 (inclusive). -/
theorem c6_inclusive_exclusive_off_by_one_witness :
    (1 : Nat) = 0 + 1 ∧ (1 : Nat) = 0 + 1 := by
  have h := c6_inclusive_exclusive_off_by_one
    [Char.ofNat 97, Char.ofNat 98] (Char.ofNat 98) 0 1
  have h2 := c6_inclusive_exclusive_off_by_one
    [Char.ofNat 97, Char.ofNat 98] (Char.ofNat 97) 2 1
  exact ⟨h.1 1 0 (by decide) (by decide), h2.2 1 0 (by decide) (by decide)⟩

/-- C9: for n at least 1 and a valid pos, whenever the scanning loop of
find_nth_next completes, the running position is at least 1, so the
exclusive adjustment pos - 1 never underflows and the call returns
some (p - 1) rather than panicking. -/
theorem c9_no_underflow (text : List Char) (ch : Char) (pos n : Nat)
    (hpos : pos < text.length) (hn : 1 ≤ n) :
    ∀ p, findNthNextLoop ch n (text.drop (pos + 1)) pos = some p →
      1 ≤ p ∧ find_nth_next text ch pos n false = some (p - 1) := by
  intro p hp
  have hnl : ¬ text.length ≤ pos := Nat.not_le.mpr hpos
  have hge : 1 ≤ p := by
    cases n with
    | zero => omega
    | succ m =>
      simp only [findNthNextLoop] at hp
      cases hf : findCharFwd ch (text.drop (pos + 1)) pos with
      | none => rw [hf] at hp; simp at hp
      | some rp =>
        rw [hf] at hp
        have h1 := findCharFwd_lt ch (text.drop (pos + 1)) pos rp hf
        have h2 := findNthNextLoop_le ch m rp.1 rp.2 p hp
        omega
  refine ⟨hge, ?_⟩
  simp [find_nth_next, hnl, hp, checkedSub, hge]

/-- C9 witness: on text "ab" with ch = b, pos 0, n 1 the loop returns
position 1 and the exclusive call returns some 0. -/
theorem c9_no_underflow_witness :
    1 ≤ 1 ∧ find_nth_next [Char.ofNat 97, Char.ofNat 98] (Char.ofNat 98)
      0 1 false = some 0 :=
  c9_no_underflow [Char.ofNat 97, Char.ofNat 98] (Char.ofNat 98) 0 1
    (by decide) (by decide) 1 (by decide)

/-- C10: with the scan positioned at character index 0 there is no
preceding character, so for any n at least 1 and either value of inclusive,
find_nth_prev returns none rather than an error or panic. -/
theorem c10_prev_at_zero (text : List Char) (ch : Char) (n : Nat)
    (inclusive : Bool) (hn : 1 ≤ n) :
    find_nth_prev text ch 0 n inclusive = none := by
  cases n with
  | zero => omega
  | succ m =>
    simp [find_nth_prev, findNthPrevLoop, findCharRev]

/-- C10 witness: evaluated on text "ab" with n = 1. -/
theorem c10_prev_at_zero_witness :
    find_nth_prev [Char.ofNat 97, Char.ofNat 98] (Char.ofNat 97)
      0 1 true = none :=
  c10_prev_at_zero [Char.ofNat 97, Char.ofNat 98] (Char.ofNat 97) 1 true
    (by decide)

/-- The CompiledPattern boundary contract of the spec: an automaton over
the full byte alphabet with one start state, a total transition function,
and dead and match classification.  States are natural numbers. -/
structure CDFA where
  start_state : Nat
  next_state : Nat → Nat → Nat
  is_match_state : Nat → Bool
  is_dead_state : Nat → Bool

/-- The fused classification check of the contract, consistent with the
two individual ones. -/
def CDFA.is_match_or_dead_state (d : CDFA) (s : Nat) : Bool :=
  d.is_match_state s || d.is_dead_state s

/-- Total byte count of a chunked text, as len_bytes of the rope slice. -/
def len_bytes (t : List (List Nat)) : Nat := (t.map List.length).sum

/-- Embeds the inner byte loop of Searcher::find over one chunk: i is the
enumerate index within the chunk (restarting at 0 for every chunk, exactly
as in the source), an inl result is the early return taken on a dead
state, and an inr result carries the state and tentative match onward to
the next chunk. -/
def findLoop (d : CDFA) :
    List Nat → Nat → Nat → Option Nat → Sum (Option Nat) (Nat × Option Nat)
  | [], _, state, lastMatch => Sum.inr (state, lastMatch)
  | b :: rest, i, state, lastMatch =>
    let s := d.next_state state b
    if d.is_match_or_dead_state s then
      if d.is_dead_state s then Sum.inl lastMatch
      else findLoop d rest (i + 1) s (some (i + 1))
    else findLoop d rest (i + 1) s lastMatch

/-- Embeds the chunk loop of Searcher::find, in document order. -/
def findChunks (d : CDFA) :
    List (List Nat) → Nat → Option Nat → Option Nat
  | [], _, lastMatch => lastMatch
  | c :: rest, state, lastMatch =>
    match findLoop d c 0 state lastMatch with
    | Sum.inl r => r
    | Sum.inr sl => findChunks d rest sl.1 sl.2

/-- Embeds Searcher::find from src/helix-core/src/search.rs: none when the
start state is dead, tentative some 0 when the start state matches, then
the forward chunk-and-byte scan. -/
def Searcher.find (d : CDFA) (text : List (List Nat)) : Option Nat :=
  let s := d.start_state
  if d.is_dead_state s then none
  else findChunks d text s (if d.is_match_state s then some 0 else none)

/-- Embeds the inner byte loop of Searcher::rfind over one chunk, whose
bytes arrive as the reversed enumeration of the chunk (iter enumerate rev
in the source): the recorded tentative value is the enumerate index of the
byte just consumed. -/
def rfindLoop (d : CDFA) :
    List (Nat × Nat) → Nat → Option Nat → Sum (Option Nat) (Nat × Option Nat)
  | [], state, lastMatch => Sum.inr (state, lastMatch)
  | ib :: rest, state, lastMatch =>
    let s := d.next_state state ib.2
    if d.is_match_or_dead_state s then
      if d.is_dead_state s then Sum.inl lastMatch
      else rfindLoop d rest s (some ib.1)
    else rfindLoop d rest s lastMatch

/-- Embeds the backward chunk loop of Searcher::rfind: the chunk list
arrives already reversed (chunks_at_byte at len_bytes stepped with prev in
the source). -/
def rfindChunks (d : CDFA) :
    List (List Nat) → Nat → Option Nat → Option Nat
  | [], _, lastMatch => lastMatch
  | c :: rest, state, lastMatch =>
    match rfindLoop d c.enum.reverse state lastMatch with
    | Sum.inl r => r
    | Sum.inr sl => rfindChunks d rest sl.1 sl.2

/-- Embeds Searcher::rfind from src/helix-core/src/search.rs: none when
the start state is dead, tentative some (len_bytes text) when the start
state matches, then the backward chunk-and-byte scan. -/
def Searcher.rfind (d : CDFA) (text : List (List Nat)) : Option Nat :=
  let s := d.start_state
  if d.is_dead_state s then none
  else
    rfindChunks d text.reverse s
      (if d.is_match_state s then some (len_bytes text) else none)

/-- Models the rope slice text[..k]: the first k bytes of the chunked
text, chunk boundaries preserved. -/
def sliceTo : List (List Nat) → Nat → List (List Nat)
  | [], _ => []
  | c :: rest, k =>
    if k ≤ c.length then [c.take k] else c :: sliceTo rest (k - c.length)

/-- Models the rope slice text[k..]: the chunked text with its first k
bytes removed, chunk boundaries preserved. -/
def sliceFrom : List (List Nat) → Nat → List (List Nat)
  | [], _ => []
  | c :: rest, k =>
    if k ≤ c.length then c.drop k :: rest else sliceFrom rest (k - c.length)

/-- The bundle of four compiled automata owned by one Searcher. -/
structure Searcher where
  right_fdfa : CDFA
  right_rdfa : CDFA
  left_fdfa : CDFA
  left_rdfa : CDFA

/-- Embeds Searcher::search_next: restrict to text[offset..], locate the
match end with the forward driver on right_fdfa, then the match start with
the backward driver on right_rdfa over the sub-domain up to that end, and
re-base both by offset.  A range is a start and end pair. -/
def Searcher.search_next (s : Searcher) (text : List (List Nat))
    (offset : Nat) : Option (Nat × Nat) :=
  let t := sliceFrom text offset
  match Searcher.find s.right_fdfa t with
  | none => none
  | some e =>
    match Searcher.rfind s.right_rdfa (sliceTo t e) with
    | none => none
    | some st => some (offset + st, offset + e)

/-- Embeds Searcher::search_prev: restrict to text[..offset], locate the
match start with the backward driver on left_fdfa, then the match end with
the forward driver on left_rdfa over the sub-domain from that start. -/
def Searcher.search_prev (s : Searcher) (text : List (List Nat))
    (offset : Nat) : Option (Nat × Nat) :=
  let t := sliceTo text offset
  match Searcher.rfind s.left_fdfa t with
  | none => none
  | some st =>
    match Searcher.find s.left_rdfa (sliceFrom t st) with
    | none => none
    | some e => some (st, st + e)

/-- A small automaton satisfying the CompiledPattern contract: it is in
its match state exactly when the last consumed byte was 0x61, it has no
dead state, and its transition function is total. -/
def lastA : CDFA where
  start_state := 0
  next_state := fun _ b => if b == 97 then 1 else 0
  is_match_state := fun s => s == 1
  is_dead_state := fun _ => false

/-- C2 refutation data: on the byte domain 0x61 0x62 0x61 the forward
driver returns some 2 when the domain arrives split into the two chunks
[0x61] and [0x62, 0x61], because the tentative value recorded on a match
is the chunk-local enumerate index plus 1, yet it returns some 3 (the
domain-global byte index of the last matching byte plus 1) when the same
domain arrives as a single chunk: the result depends on the chunking, and
on the split domain it is not the global value the claim requires. -/
theorem c2_find_records_chunk_local_index :
    Searcher.find lastA [[97], [98, 97]] = some 2 ∧
    Searcher.find lastA [[97, 98, 97]] = some 3 := by
  constructor <;> rfl

/-- C3 refutation data: on the byte domain 0x62 0x61 0x62 the backward
driver returns some 0 when the domain arrives split into the two chunks
[0x62] and [0x61, 0x62], because the tentative value recorded on a match
is the chunk-local enumerate index of the byte just consumed, yet it
returns some 1 (the domain-global byte index of that byte) when the same
domain arrives as a single chunk. -/
theorem c3_rfind_records_chunk_local_index :
    Searcher.rfind lastA [[98], [97, 98]] = some 0 ∧
    Searcher.rfind lastA [[98, 97, 98]] = some 1 := by
  constructor <;> rfl

/-- ASCII word byte for the class backslash-w: digits, letters, underscore. -/
def word_byte (b : Nat) : Bool :=
  (48 ≤ b && b ≤ 57) || (65 ≤ b && b ≤ 90) || (97 ≤ b && b ≤ 122) || b == 95

/-- Modelled from the spec: the external PatternCompiler output for the
unanchored pattern backslash-w-plus (which is its own reversal) under
leftmost-first matching.  State 0 scans for a first word byte, state 1 is
the match state reached and kept while word bytes continue, and a non-word
byte after a match enters the absorbing dead state 2, since under
leftmost-first semantics the committed match cannot be abandoned. -/
def wplus_fdfa : CDFA where
  start_state := 0
  next_state := fun s b =>
    if s == 0 then (if word_byte b then 1 else 0)
    else if s == 1 then (if word_byte b then 1 else 2)
    else 2
  is_match_state := fun s => s == 1
  is_dead_state := fun s => s == 2

/-- Modelled from the spec: the external PatternCompiler output for the
anchored longest-match pattern backslash-w-plus (again its own reversal).
The match must start at the first consumed byte, and every further word
byte extends it; any non-word byte enters the absorbing dead state 2. -/
def wplus_adfa : CDFA where
  start_state := 0
  next_state := fun s b => if s ≤ 1 && word_byte b then 1 else 2
  is_match_state := fun s => s == 1
  is_dead_state := fun s => s == 2

/-- The Searcher that Searcher::new builds for the pattern backslash-w-plus
per the construction table of the spec: the pattern is its own reversal, so
both unanchored automata coincide, as do both anchored longest-match ones. -/
def wplus_searcher : Searcher where
  right_fdfa := wplus_fdfa
  right_rdfa := wplus_adfa
  left_fdfa := wplus_fdfa
  left_rdfa := wplus_adfa

/-- The bytes of the text "hello world!", stored as one chunk. -/
def helloWorld : List Nat := [104, 101, 108, 108, 111, 32, 119, 111, 114, 108, 100, 33]

/-- C4: on the text "hello world!" with the pattern backslash-w-plus, the
searcher satisfies the whole spec scenario: search_next finds 0..5 from
offset 0, 6..11 from offset 5, and nothing from offset 11; search_prev
finds 6..11 from offset 12, 0..5 from offset 6, and nothing from offset 0. -/
theorem c4_hello_world_scenario :
    Searcher.search_next wplus_searcher [helloWorld] 0 = some (0, 5) ∧
    Searcher.search_next wplus_searcher [helloWorld] 5 = some (6, 11) ∧
    Searcher.search_next wplus_searcher [helloWorld] 11 = none ∧
    Searcher.search_prev wplus_searcher [helloWorld] 12 = some (6, 11) ∧
    Searcher.search_prev wplus_searcher [helloWorld] 6 = some (0, 5) ∧
    Searcher.search_prev wplus_searcher [helloWorld] 0 = none := by
  refine ⟨rfl, rfl, rfl, rfl, rfl, rfl⟩

/-- ASCII uppercase test, as the smart-case check of Searcher::new. -/
def is_uppercase (b : Nat) : Bool := 65 ≤ b && b ≤ 90

/-- ASCII lowercasing of a byte when the case-insensitive option is set. -/
def foldByte (ci : Bool) (b : Nat) : Nat :=
  if ci && is_uppercase b then b + 32 else b

/-- Largest j not exceeding the length of q such that the first j bytes of
q are a suffix of w; used as the subset-construction successor state of a
literal-pattern automaton. -/
def largestSuffix (q : List Nat) (w : List Nat) : Nat :=
  (((List.range (q.length + 1)).reverse).find?
    (fun j => (q.take j).isSuffixOf w)).getD 0

/-- Modelled from the spec: the external PatternCompiler output for a
literal ASCII pattern p under the case-insensitive, anchored and reverse
options.  State k means the first k pattern bytes are matched; the full
match L is the match state; L + 1 is the absorbing dead state.  Anchored
automata advance through the pattern or die; unanchored ones fall back to
the longest prefix of the pattern that remains a suffix of the consumed
input, and die after a completed match as leftmost-first semantics demand.
Case-insensitive matching folds pattern and input bytes to lowercase. -/
def compileLit (p : List Nat) (ci anchored rev : Bool) : CDFA :=
  let q := (if rev then p.reverse else p).map (foldByte ci)
  { start_state := 0
    next_state := fun s b =>
      let c := foldByte ci b
      if s < q.length then
        if anchored then
          (if q.get? s = some c then s + 1 else q.length + 1)
        else largestSuffix q ((q.take s) ++ [c])
      else q.length + 1
    is_match_state := fun s => s == q.length
    is_dead_state := fun s => s == q.length + 1 }

/-- Embeds Searcher::new restricted to literal ASCII patterns: the smart
case check (case-insensitive exactly when the pattern has no uppercase
letter) and the four-automaton fan-out with its orientation and anchoring
options come from the source; the automata themselves come from the
modelled compiler, with the longest-match option implicit since a literal
has exactly one match length. -/
def Searcher.new (pattern : List Nat) : Searcher :=
  let has_uppercase := pattern.any is_uppercase
  let ci := !has_uppercase
  { left_fdfa := compileLit pattern ci false true
    left_rdfa := compileLit pattern ci true false
    right_fdfa := compileLit pattern ci false false
    right_rdfa := compileLit pattern ci true true }

/-- A searcher matches a text when a forward search from offset 0 over the
whole text succeeds. -/
def Searcher.matchesText (s : Searcher) (text : List Nat) : Bool :=
  (Searcher.search_next s [text] 0).isSome

/-- C5: smart case.  The searcher built for the all-lowercase pattern foo
is case-insensitive and matches Foo, FOO and foo, while the searcher built
for the pattern Foo, which contains an uppercase letter, matches only
exact-case Foo and rejects foo and FOO. -/
theorem c5_smart_case :
    Searcher.matchesText (Searcher.new [102, 111, 111]) [70, 111, 111] = true ∧
    Searcher.matchesText (Searcher.new [102, 111, 111]) [70, 79, 79] = true ∧
    Searcher.matchesText (Searcher.new [102, 111, 111]) [102, 111, 111] = true ∧
    Searcher.matchesText (Searcher.new [70, 111, 111]) [70, 111, 111] = true ∧
    Searcher.matchesText (Searcher.new [70, 111, 111]) [102, 111, 111] = false ∧
    Searcher.matchesText (Searcher.new [70, 111, 111]) [70, 79, 79] = false := by
  refine ⟨rfl, rfl, rfl, rfl, rfl, rfl⟩

/-- Helper: len_bytes of a cons is the head length plus the tail count. -/
theorem len_bytes_cons (c : List Nat) (t : List (List Nat)) :
    len_bytes (c :: t) = c.length + len_bytes t := by
  simp [len_bytes]

/-- Helper: every chunk of a text is at most the whole byte count long. -/
theorem length_le_len_bytes (t : List (List Nat)) (c : List Nat)
    (hc : c ∈ t) : c.length ≤ len_bytes t := by
  induction t with
  | nil => simp at hc
  | cons a rest ih =>
    rw [len_bytes_cons]
    rcases List.mem_cons.mp hc with h | h
    · subst h; omega
    · have := ih h; omega

/-- Helper: the byte count of the slice text[..k] is min k (len_bytes text). -/
theorem len_bytes_sliceTo (t : List (List Nat)) :
    ∀ k, len_bytes (sliceTo t k) = min k (len_bytes t) := by
  induction t with
  | nil => intro k; simp [sliceTo, len_bytes]
  | cons c rest ih =>
    intro k
    by_cases h : k ≤ c.length
    · simp only [sliceTo, if_pos h, len_bytes_cons, len_bytes,
        List.length_take, List.map_nil, List.sum_nil, List.map_cons,
        List.sum_cons]
      omega
    · simp only [sliceTo, if_neg h, len_bytes_cons, ih]
      omega

/-- Helper: the byte count of the slice text[k..] is len_bytes text - k. -/
theorem len_bytes_sliceFrom (t : List (List Nat)) :
    ∀ k, len_bytes (sliceFrom t k) = len_bytes t - k := by
  induction t with
  | nil => intro k; simp [sliceFrom, len_bytes]
  | cons c rest ih =>
    intro k
    by_cases h : k ≤ c.length
    · simp only [sliceFrom, if_pos h, len_bytes_cons, List.length_drop]
      omega
    · simp only [sliceFrom, if_neg h, ih, len_bytes_cons]
      omega

/-- Helper: every tentative value the forward byte loop can hand on (by
early return or by continuing) stays below any bound that dominates the
incoming tentative value and the chunk-local indices. -/
theorem findLoop_bound (d : CDFA) :
    ∀ (c : List Nat) (i st : Nat) (lm : Option Nat) (B : Nat),
      (∀ j, lm = some j → j ≤ B) → i + c.length ≤ B →
      ∀ j, (match findLoop d c i st lm with
            | Sum.inl r => r
            | Sum.inr sl => sl.2) = some j → j ≤ B := by
  intro c
  induction c with
  | nil =>
    intro i st lm B hlm hi j h
    simp only [findLoop] at h
    exact hlm j h
  | cons b rest ih =>
    intro i st lm B hlm hi j h
    rw [List.length_cons] at hi
    simp only [findLoop] at h
    by_cases h1 : d.is_match_or_dead_state (d.next_state st b)
    · rw [if_pos h1] at h
      by_cases h2 : d.is_dead_state (d.next_state st b)
      · rw [if_pos h2] at h
        exact hlm j h
      · rw [if_neg h2] at h
        refine ih (i + 1) (d.next_state st b) (some (i + 1)) B ?_ (by omega) j h
        intro j2 hj2
        injection hj2 with hj3
        omega
    · rw [if_neg h1] at h
      exact ih (i + 1) (d.next_state st b) lm B hlm (by omega) j h

/-- Helper: the forward chunk loop never reports a value above a bound
that dominates the incoming tentative value and every chunk length. -/
theorem findChunks_bound (d : CDFA) :
    ∀ (cs : List (List Nat)) (st : Nat) (lm : Option Nat) (B : Nat),
      (∀ j, lm = some j → j ≤ B) → (∀ c ∈ cs, c.length ≤ B) →
      ∀ j, findChunks d cs st lm = some j → j ≤ B := by
  intro cs
  induction cs with
  | nil =>
    intro st lm B hlm hcs j h
    simp only [findChunks] at h
    exact hlm j h
  | cons c rest ih =>
    intro st lm B hlm hcs j h
    simp only [findChunks] at h
    have hc : 0 + c.length ≤ B := by
      have := hcs c (by simp)
      omega
    have hb := findLoop_bound d c 0 st lm B hlm hc
    cases hfl : findLoop d c 0 st lm with
    | inl r =>
      rw [hfl] at h
      exact hb j (by rw [hfl]; exact h)
    | inr sl =>
      rw [hfl] at h
      refine ih sl.1 sl.2 B ?_ ?_ j h
      · intro j2 hj2
        exact hb j2 (by rw [hfl]; exact hj2)
      · intro c2 hc2
        exact hcs c2 (by simp [hc2])

/-- Helper: the forward driver only ever returns an offset bounded by the
byte count of the scanned domain. -/
theorem find_le (d : CDFA) (t : List (List Nat)) (j : Nat)
    (h : Searcher.find d t = some j) : j ≤ len_bytes t := by
  unfold Searcher.find at h
  by_cases hd : d.is_dead_state d.start_state
  · simp [hd] at h
  · rw [if_neg hd] at h
    refine findChunks_bound d t d.start_state _ (len_bytes t) ?_ ?_ j h
    · intro j2 hj2
      by_cases hm : d.is_match_state d.start_state
      · rw [if_pos hm] at hj2
        simp at hj2
        omega
      · rw [if_neg hm] at hj2
        simp at hj2
    · intro c hc
      exact length_le_len_bytes t c hc

/-- Helper: an index appearing in enumFrom k is below k plus the length. -/
theorem fst_lt_of_mem_enumFrom_list :
    ∀ (c : List Nat) (k : Nat) (p : Nat × Nat),
      p ∈ List.enumFrom k c → p.1 < k + c.length := by
  intro c
  induction c with
  | nil => intro k p h; simp [List.enumFrom] at h
  | cons a rest ih =>
    intro k p h
    simp only [List.enumFrom] at h
    rw [List.length_cons]
    rcases List.mem_cons.mp h with h1 | h1
    · subst h1
      show k < k + (rest.length + 1)
      omega
    · have := ih (k + 1) p h1
      omega

/-- Helper: every tentative value the backward byte loop can hand on stays
below any bound that dominates the incoming tentative value and the first
components of the enumerated byte pairs. -/
theorem rfindLoop_bound (d : CDFA) :
    ∀ (ps : List (Nat × Nat)) (st : Nat) (lm : Option Nat) (B : Nat),
      (∀ j, lm = some j → j ≤ B) → (∀ p ∈ ps, p.1 ≤ B) →
      ∀ j, (match rfindLoop d ps st lm with
            | Sum.inl r => r
            | Sum.inr sl => sl.2) = some j → j ≤ B := by
  intro ps
  induction ps with
  | nil =>
    intro st lm B hlm hps j h
    simp only [rfindLoop] at h
    exact hlm j h
  | cons ib rest ih =>
    intro st lm B hlm hps j h
    simp only [rfindLoop] at h
    by_cases h1 : d.is_match_or_dead_state (d.next_state st ib.2)
    · rw [if_pos h1] at h
      by_cases h2 : d.is_dead_state (d.next_state st ib.2)
      · rw [if_pos h2] at h
        exact hlm j h
      · rw [if_neg h2] at h
        refine ih (d.next_state st ib.2) (some ib.1) B ?_ ?_ j h
        · intro j2 hj2
          injection hj2 with hj3
          have := hps ib (by simp)
          omega
        · intro p hp
          exact hps p (by simp [hp])
    · rw [if_neg h1] at h
      refine ih (d.next_state st ib.2) lm B hlm ?_ j h
      intro p hp
      exact hps p (by simp [hp])

/-- Helper: the backward chunk loop never reports a value above a bound
that dominates the incoming tentative value and every chunk length. -/
theorem rfindChunks_bound (d : CDFA) :
    ∀ (cs : List (List Nat)) (st : Nat) (lm : Option Nat) (B : Nat),
      (∀ j, lm = some j → j ≤ B) → (∀ c ∈ cs, c.length ≤ B) →
      ∀ j, rfindChunks d cs st lm = some j → j ≤ B := by
  intro cs
  induction cs with
  | nil =>
    intro st lm B hlm hcs j h
    simp only [rfindChunks] at h
    exact hlm j h
  | cons c rest ih =>
    intro st lm B hlm hcs j h
    simp only [rfindChunks] at h
    have hps : ∀ p ∈ c.enum.reverse, p.1 ≤ B := by
      intro p hp
      have hp2 : p ∈ c.enum := List.mem_reverse.mp hp
      have := fst_lt_of_mem_enumFrom_list c 0 p hp2
      have := hcs c (by simp)
      omega
    have hb := rfindLoop_bound d c.enum.reverse st lm B hlm hps
    cases hfl : rfindLoop d c.enum.reverse st lm with
    | inl r =>
      rw [hfl] at h
      exact hb j (by rw [hfl]; exact h)
    | inr sl =>
      rw [hfl] at h
      refine ih sl.1 sl.2 B ?_ ?_ j h
      · intro j2 hj2
        exact hb j2 (by rw [hfl]; exact hj2)
      · intro c2 hc2
        exact hcs c2 (by simp [hc2])

/-- Helper: the backward driver only ever returns an offset bounded by the
byte count of the scanned domain. -/
theorem rfind_le (d : CDFA) (t : List (List Nat)) (j : Nat)
    (h : Searcher.rfind d t = some j) : j ≤ len_bytes t := by
  unfold Searcher.rfind at h
  by_cases hd : d.is_dead_state d.start_state
  · simp [hd] at h
  · rw [if_neg hd] at h
    refine rfindChunks_bound d t.reverse d.start_state _ (len_bytes t) ?_ ?_ j h
    · intro j2 hj2
      by_cases hm : d.is_match_state d.start_state
      · rw [if_pos hm] at hj2
        simp at hj2
        omega
      · rw [if_neg hm] at hj2
        simp at hj2
    · intro c hc
      exact length_le_len_bytes t c (List.mem_reverse.mp hc)

/-- Helper: the shape of a successful forward search: the range sits at or
after the search offset, is ordered, and ends within the domain. -/
theorem search_next_shape (s : Searcher) (text : List (List Nat))
    (offset a b : Nat)
    (h : Searcher.search_next s text offset = some (a, b)) :
    offset ≤ a ∧ a ≤ b ∧ b ≤ offset + (len_bytes text - offset) := by
  simp only [Searcher.search_next] at h
  split at h
  · exact Option.noConfusion h
  · rename_i e he
    split at h
    · exact Option.noConfusion h
    · rename_i st hst
      simp only [Option.some.injEq, Prod.mk.injEq] at h
      obtain ⟨h3, h4⟩ := h
      have h1 := find_le _ _ _ he
      have h2 := rfind_le _ _ _ hst
      rw [len_bytes_sliceFrom] at h1
      rw [len_bytes_sliceTo, len_bytes_sliceFrom] at h2
      omega

/-- Helper: the shape of a successful backward search: the range is
ordered and is contained in the domain before the search offset. -/
theorem search_prev_shape (s : Searcher) (text : List (List Nat))
    (offset a b : Nat)
    (h : Searcher.search_prev s text offset = some (a, b)) :
    a ≤ b ∧ b ≤ min offset (len_bytes text) := by
  simp only [Searcher.search_prev] at h
  split at h
  · exact Option.noConfusion h
  · rename_i st hst
    split at h
    · exact Option.noConfusion h
    · rename_i e he
      simp only [Option.some.injEq, Prod.mk.injEq] at h
      obtain ⟨h3, h4⟩ := h
      have h1 := rfind_le _ _ _ hst
      have h2 := find_le _ _ _ he
      rw [len_bytes_sliceTo] at h1
      rw [len_bytes_sliceFrom, len_bytes_sliceTo] at h2
      omega

/-- C7: every MatchRange returned by search_next or search_prev on a valid
offset is a half-open byte interval with 0 at most start, start at most
end, and end at most len_bytes of the searched text. -/
theorem c7_match_range_invariant (s : Searcher) (text : List (List Nat))
    (offset : Nat) (hoff : offset ≤ len_bytes text) :
    (∀ a b, Searcher.search_next s text offset = some (a, b) →
      a ≤ b ∧ b ≤ len_bytes text) ∧
    (∀ a b, Searcher.search_prev s text offset = some (a, b) →
      a ≤ b ∧ b ≤ len_bytes text) := by
  constructor
  · intro a b h
    have := search_next_shape s text offset a b h
    omega
  · intro a b h
    have := search_prev_shape s text offset a b h
    omega

/-- C7 witness: on the hello world scenario, the range 0..5 returned by
search_next at offset 0 and the range 6..11 returned by search_prev at
offset 12 both satisfy the invariant. -/
theorem c7_match_range_invariant_witness :
    (0 ≤ 5 ∧ 5 ≤ len_bytes [helloWorld]) ∧
    (6 ≤ 11 ∧ 11 ≤ len_bytes [helloWorld]) :=
  ⟨(c7_match_range_invariant wplus_searcher [helloWorld] 0
      (by decide)).1 0 5 (by rfl),
   (c7_match_range_invariant wplus_searcher [helloWorld] 12
      (by decide)).2 6 11 (by rfl)⟩

/-- The searcher built for the empty literal pattern: all four modelled
automata match the empty string at their start state and enter the
absorbing dead state on any byte, as leftmost-first compilation of an
empty-matching pattern does. -/
def emptySearcher : Searcher := Searcher.new []

/-- C8 counterexample: backward progress is not strict for an
empty-matching pattern.  On the text "ab", search_prev at offset 2
returns the empty range 2..2, and the subsequent search_prev resumed at
the start of that range returns the identical empty range 2..2: neither
its end nor its start has moved toward offset 0, refuting the unguarded
strictly-closer-to-0 conjunct of the claim (the two empty ranges are
still disjoint). -/
theorem c8_backward_progress_counterexample :
    Searcher.search_prev emptySearcher [[97, 98]] 2 = some (2, 2) ∧
    ¬ (∀ a b a2 b2,
        Searcher.search_prev emptySearcher [[97, 98]] 2 = some (a, b) →
        Searcher.search_prev emptySearcher [[97, 98]] a = some (a2, b2) →
        b2 < b ∨ a2 < a) := by
  constructor
  · rfl
  · intro h
    rcases h 2 2 2 2 rfl rfl with h1 | h1 <;> omega

/-- C8 (amended): search calls make progress without overlap.  A forward search
resumed at the end of the returned range only returns ranges starting at
or after that end, hence disjoint from it; a backward search resumed at
the start of the returned range only returns ranges ending at or before
that start, hence disjoint from it and strictly closer to offset 0
whenever the first range is nonempty. -/
theorem c8_search_progress (s : Searcher) (text : List (List Nat))
    (offset : Nat) :
    (∀ a b a2 b2, Searcher.search_next s text offset = some (a, b) →
      Searcher.search_next s text b = some (a2, b2) →
      b ≤ a2 ∧ ∀ i, a ≤ i → i < b → ¬ (a2 ≤ i ∧ i < b2)) ∧
    (∀ a b a2 b2, Searcher.search_prev s text offset = some (a, b) →
      Searcher.search_prev s text a = some (a2, b2) →
      b2 ≤ a ∧ (∀ i, a ≤ i → i < b → ¬ (a2 ≤ i ∧ i < b2)) ∧
        (a < b → b2 < b)) := by
  constructor
  · intro a b a2 b2 h1 h2
    have s2 := search_next_shape s text b a2 b2 h2
    constructor
    · omega
    · intro i hi1 hi2
      omega
  · intro a b a2 b2 h1 h2
    have s2 := search_prev_shape s text a a2 b2 h2
    refine ⟨by omega, ?_, by omega⟩
    intro i hi1 hi2
    omega

/-- C8 witness: on the hello world scenario, the forward chain 0..5 then
6..11 has 5 at most 6, and the backward chain 6..11 then 0..5 has 5 at
most 6. -/
theorem c8_search_progress_witness : 5 ≤ 6 ∧ 5 ≤ 6 :=
  ⟨((c8_search_progress wplus_searcher [helloWorld] 0).1
      0 5 6 11 (by rfl) (by rfl)).1,
   ((c8_search_progress wplus_searcher [helloWorld] 12).2
      6 11 0 5 (by rfl) (by rfl)).1⟩

end HelixSearch
